import Mathlib

/-!
Shallow embedding of `src/maschinengott/src/disassembler.rs`.

The repository's single source file post-processes the output of an external
x86 instruction decoder (the `iced_x86` crate): it renders one text line per
decoded instruction, aggregates mnemonic usage counts, and collects the ISA
extension features used.  The decoder and the two dialect formatters are
external collaborators; they enter the embedding as opaque data carried by
each `DecodedInstruction` record (its rendered texts) and as an abstract
`decode` function parameter.

Machine integers are modelled as `Nat`: `address`/`rip` are `u64` in the
source (theorems that depend on the 64-bit range carry an explicit
`< 2 ^ 64` hypothesis), buffer bytes are `u8` (carried as `< 256`
hypotheses).  Fallible operations (slice indexing, `u64` subtraction, which
panic in Rust) are modelled with `Option`.
-/

namespace Maschinengott

/-- Embeds the source's `enum Bitness { X64 = 64 }`. -/
inductive Bitness where
  | X64
deriving DecidableEq, Repr

/-- One decoded instruction as exposed by the external Instruction Source
(`iced_x86::Instruction`), restricted to the capabilities the core reads:
start address (`ip()`), byte length (`len()`), the `Debug` rendering of the
mnemonic enum value, the opcode-encoding string (`op_code().op_code_string()`),
the two dialect-specific formatter renderings (Intel / GAS, with the option
configuration fixed by the source: lowercase mnemonics, first operand at
column 8, GAS size suffixes), and the `Debug` renderings of the CPUID
feature tags (`cpuid_features()`). -/
structure DecodedInstruction where
  ip : Nat
  len : Nat
  mnemonic : String
  opCodeString : String
  renderedIntel : String
  renderedGas : String
  cpuidFeatures : List String
deriving DecidableEq, Repr

/-- Embeds the source's `struct DisassemblerResult`. -/
structure DisassemblerResult where
  assembly : List String
  most_used_instructions : List (String × Nat)
  isa_extensions_used : List String
deriving DecidableEq, Repr

/-! ### Numeric rendering (Rust `format!` integer specifiers) -/

/-- Little-endian base-`b` digit expansion, with an explicit fuel argument
(`fuel ≥ n` suffices) so that the definition is structurally recursive and
kernel-reducible. -/
def toDigitsRevAux (b : Nat) : Nat → Nat → List Nat
  | 0, _ => []
  | fuel + 1, n => if n = 0 then [] else n % b :: toDigitsRevAux b fuel (n / b)

/-- Little-endian base-`b` digits of `n` (empty for `n = 0`). -/
def toDigitsRev (b n : Nat) : List Nat :=
  toDigitsRevAux b n n

/-- The digit alphabet of Rust's `{:b}` / `{:X}` integer formatting
(binary digits and uppercase hexadecimal). -/
def digitChar (d : Nat) : Char :=
  match d with
  | 0 => '0' | 1 => '1' | 2 => '2' | 3 => '3' | 4 => '4' | 5 => '5' | 6 => '6' | 7 => '7'
  | 8 => '8' | 9 => '9' | 10 => 'A' | 11 => 'B' | 12 => 'C' | 13 => 'D' | 14 => 'E'
  | 15 => 'F' | _ => '*'

/-- Most-significant-first character rendering of `n` in base `b`, as Rust's
`{:b}` / `{:X}` produce it (no leading zeros; `"0"` for zero). -/
def natToBase (b n : Nat) : List Char :=
  if n = 0 then ['0'] else (toDigitsRev b n).reverse.map digitChar

/-- Zero-padding on the left to minimum width `w`: the effect of Rust's
`0`+width flags on an *integer* argument (`{:016b}`, `{:08b}`, `{:02X}`,
`{:016X}`).  Wider values are printed in full, not truncated. -/
def padLeftZero (cs : List Char) (w : Nat) : List Char :=
  List.replicate (w - cs.length) '0' ++ cs

/-- Space-padding on the right to minimum width `w`.  This is the behaviour
of Rust's `format!` for *string* arguments under a width, with or without
the `0` flag: `Formatter::pad` left-aligns strings and fills with the fill
character, which remains `' '` because the `0` flag is sign-aware zero
padding and applies only to `pad_integral` (integers).  Hence both
`{:<32}` (opcode column) and `{:0width$}` (byte-dump column) of the source
pad a string on the right with spaces. -/
def padRightSpace (s : String) (w : Nat) : String :=
  s ++ String.mk (List.replicate (w - s.length) ' ')

/-- The address column: `format!("{:016b}", ip)` resp. `format!("{:016X}", ip)`. -/
def addrField (use_binary : Bool) (ip : Nat) : String :=
  if use_binary then String.mk (padLeftZero (natToBase 2 ip) 16)
  else String.mk (padLeftZero (natToBase 16 ip) 16)

/-- One raw byte as rendered into the byte dump: `{:08b}` resp. `{:02X}`. -/
def byteGroup (use_binary : Bool) (b : Nat) : String :=
  if use_binary then String.mk (padLeftZero (natToBase 2 b) 8)
  else String.mk (padLeftZero (natToBase 16 b) 2)

/-- The `machine_code` accumulation loop of `extract_assembly`: each raw
byte rendered per numeric mode followed by one space, concatenated in
instruction-byte order. -/
def machineCode (use_binary : Bool) (instr_bytes : List Nat) : String :=
  instr_bytes.foldl (fun acc b => acc ++ byteGroup use_binary b ++ " ") ""

/-- The byte-dump column of a line: the rendered bytes, space-padded on the
right to total width `64 + 16` (binary) resp. `32` (hex) — the source's
`format!("... {:0width$} ...", machine_code)` with
`width = if use_binary { 64 + 16 } else { 32 }`. -/
def byteDumpField (use_binary : Bool) (instr_bytes : List Nat) : String :=
  padRightSpace (machineCode use_binary instr_bytes)
    (if use_binary then 64 + 16 else 32)

/-! ### Per-ASCII-character lowercasing (Rust `str::to_lowercase` on the
ASCII mnemonic names). -/

/-- Lowercases every character; agrees with Rust's `to_lowercase` on the
ASCII-only `Mnemonic` debug names the source applies it to. -/
def lowerString (s : String) : String :=
  String.mk (s.data.map Char.toLower)

/-! ### The core functions of `disassembler.rs` -/

/-- The body of the `par_iter().map(...)` closure of `extract_assembly`,
for one instruction.  The two `Option` layers model the two panics Rust can
raise there: `instruction.ip() - rip` underflowing `u64` and the slice
`&bytes[start_index..start_index + instruction.len()]` exceeding the
buffer.  A panicking element aborts the whole `collect`, hence `none`. -/
def formatLine (bytes : List Nat) (rip : Nat) (use_binary use_intel : Bool)
    (instruction : DecodedInstruction) : Option String :=
  let out := if use_intel then instruction.renderedIntel else instruction.renderedGas
  let line := addrField use_binary instruction.ip ++ " "
  if instruction.ip < rip then none
  else
    let start_index := instruction.ip - rip
    if start_index + instruction.len ≤ bytes.length then
      let instr_bytes := (bytes.drop start_index).take instruction.len
      some (line ++ " | " ++ byteDumpField use_binary instr_bytes ++ " | " ++
        padRightSpace instruction.opCodeString 32 ++ " | " ++ out ++ "\n")
    else none

/-- `extract_assembly`: one formatted line per instruction.  Rayon's
`par_iter().map(...).collect::<Vec<_>>()` is an order-preserving map, so it
is embedded as `List.mapM` (with `none` for a propagated panic). -/
def extract_assembly (instructions : List DecodedInstruction) (bytes : List Nat)
    (rip : Nat) (use_binary use_intel : Bool) : Option (List String) :=
  instructions.mapM (formatLine bytes rip use_binary use_intel)

/-- One `HashMap` update step of `extract_most_used_instructions`:
increment the count of `k` if present, else insert it with count 1.  The
map contents are represented canonically as an insertion-ordered
association list (the key-to-count function is all that the `HashMap`
determines; its iteration order is abstracted separately). -/
def bumpCount (m : List (String × Nat)) (k : String) : List (String × Nat) :=
  match m with
  | [] => [(k, 1)]
  | (q, v) :: rest => if q = k then (q, v + 1) :: rest else (q, v) :: bumpCount rest k

/-- The counting loop of `extract_most_used_instructions`: fold over the
instructions, keyed by the lowercased `Debug` rendering of the mnemonic. -/
def countEntries (instructions : List DecodedInstruction) : List (String × Nat) :=
  instructions.foldl (fun m i => bumpCount m (lowerString i.mnemonic)) []

/-- Insertion step of a stable sort by count descending, matching the
comparator `|(_, v1), (_, v2)| v2.cmp(v1)` of the source's `sort_by`:
an element moves past `q` exactly when `q`'s count is strictly larger. -/
def insertDesc (p : String × Nat) : List (String × Nat) → List (String × Nat)
  | [] => [p]
  | q :: rest => if p.2 < q.2 then q :: insertDesc p rest else p :: q :: rest

/-- Stable sort by count descending.  Rust's `slice::sort_by` is a stable
sort; a stable insertion sort under the same comparator is extensionally
the same function. -/
def sortDesc (l : List (String × Nat)) : List (String × Nat) :=
  l.foldr insertDesc []

/-- `extract_most_used_instructions`.  `hashIter` abstracts the iteration
order of `HashMap::into_iter()`: the standard-library `HashMap` is seeded
with a random `RandomState`, so each call enumerates the same entries in an
unspecified order.  Theorems constrain `hashIter` only to permute its
input, which is exactly the `HashMap` contract. -/
def extract_most_used_instructions
    (hashIter : List (String × Nat) → List (String × Nat))
    (instructions : List DecodedInstruction) : List (String × Nat) :=
  sortDesc (hashIter (countEntries instructions))

/-- `extract_isa_extensions`: scan instructions in order, and each
instruction's CPUID feature tags in order, appending a tag's text unless it
is already present. -/
def extract_isa_extensions (instructions : List DecodedInstruction) : List String :=
  instructions.foldl
    (fun result i =>
      i.cpuidFeatures.foldl (fun r f => if r.contains f then r else r ++ [f]) result)
    []

/-- `disassemble`, parameterized over the two external effects: the
instruction decoder (`Decoder::with_ip(bitness, bytes, rip).iter().collect()`)
and the `HashMap` iteration order of the current call. -/
def disassemble (decode : List Nat → Bitness → Nat → List DecodedInstruction)
    (hashIter : List (String × Nat) → List (String × Nat))
    (bytes : List Nat) (bitness : Bitness) (rip : Nat)
    (use_binary use_intel : Bool) : Option DisassemblerResult :=
  let instructions := decode bytes bitness rip
  match extract_assembly instructions bytes rip use_binary use_intel with
  | none => none
  | some assembly =>
    some { assembly := assembly
           most_used_instructions := extract_most_used_instructions hashIter instructions
           isa_extensions_used := extract_isa_extensions instructions }

/-! ### Claim-side auxiliary definitions (parsing and field extraction) -/

/-- Numeric value of a binary/uppercase-hexadecimal digit character. -/
def digitVal (c : Char) : Nat :=
  match c with
  | '0' => 0 | '1' => 1 | '2' => 2 | '3' => 3 | '4' => 4 | '5' => 5 | '6' => 6 | '7' => 7
  | '8' => 8 | '9' => 9 | 'A' => 10 | 'B' => 11 | 'C' => 12 | 'D' => 13 | 'E' => 14
  | 'F' => 15 | _ => 0

/-- Most-significant-digit-first evaluation of a digit group in base `b`. -/
def parseGroup (b : Nat) (g : List Char) : Nat :=
  g.foldl (fun a c => b * a + digitVal c) 0

/-- Splitting a character list at spaces, dropping empty fragments
(accumulator-based so that it is structurally recursive). -/
def splitOnSpaceAux : List Char → List Char → List (List Char)
  | [], acc => if acc = [] then [] else [acc.reverse]
  | c :: cs, acc =>
    if c = ' ' then
      if acc = [] then splitOnSpaceAux cs []
      else acc.reverse :: splitOnSpaceAux cs []
    else splitOnSpaceAux cs (c :: acc)

/-- The space-separated groups of a string, empties dropped. -/
def splitOnSpace (cs : List Char) : List (List Char) :=
  splitOnSpaceAux cs []

/-- Parsing a byte-dump field back, as the round-trip property prescribes:
split at spaces and evaluate each group in the numeric mode's base. -/
def parseByteDump (use_binary : Bool) (field : String) : List Nat :=
  (splitOnSpace field.data).map (parseGroup (if use_binary then 2 else 16))

/-- The leading maximal space-free prefix of a line: its address field. -/
def addressFieldOf (l : String) : String :=
  String.mk (l.data.takeWhile (fun c => c ≠ ' '))

/-- Boolean contiguous-substring test over character lists. -/
def hasSub (needle hay : List Char) : Bool :=
  (List.range (hay.length + 1)).any
    (fun k => ((hay.drop k).take needle.length) == needle)

/-- Little-endian digit evaluation, the inverse of `toDigitsRev`. -/
def ofDigitsLE (b : Nat) (L : List Nat) : Nat :=
  L.foldr (fun d a => d + b * a) 0

/-- Sum of the counts of a mnemonic-count list. -/
def sumCounts (l : List (String × Nat)) : Nat :=
  (l.map Prod.snd).sum

/-- Order-of-first-appearance deduplication: scan a list left to right and
keep exactly the elements not seen before, in the order of their first
appearance.  This is the specification-side description of the
`isa_extensions_used` ordering contract. -/
def keepFirsts (seen : List String) : List String → List String
  | [] => []
  | f :: rest => if f ∈ seen then keepFirsts seen rest else f :: keepFirsts (f :: seen) rest

/-! ### Concrete instruction records used by scenarios, counterexamples and
witnesses -/

/-- Modelled from the spec: the external Instruction Source decodes the
one-byte buffer `[0x90]` at base `0x1000` into a single no-op instruction of
length 1 whose mnemonic renders as `nop` and which requires no ISA
extension feature (spec §8 scenario).  The opcode-encoding string is
opaque to the core. -/
def nopInstruction : DecodedInstruction :=
  { ip := 4096, len := 1, mnemonic := "Nop", opCodeString := "NP 90",
    renderedIntel := "nop", renderedGas := "nop", cpuidFeatures := [] }

/-- Modelled from the spec: the decoder restricted to the `[0x90]` scenario
input, emitting the single no-op record above. -/
def nopDecode : List Nat → Bitness → Nat → List DecodedInstruction :=
  fun _ _ _ => [nopInstruction]

/-- A one-byte instruction record with mnemonic `Add` at address 0
(an arbitrary decoded-instruction value fed to the core functions). -/
def instrAdd : DecodedInstruction :=
  { ip := 0, len := 1, mnemonic := "Add", opCodeString := "",
    renderedIntel := "add", renderedGas := "add", cpuidFeatures := [] }

/-- A one-byte instruction record with mnemonic `Nop` at address 0. -/
def instrNop0 : DecodedInstruction :=
  { ip := 0, len := 1, mnemonic := "Nop", opCodeString := "NP 90",
    renderedIntel := "nop", renderedGas := "nop", cpuidFeatures := [] }

/-- A one-byte instruction record at address `2 ^ 16`, whose binary address
rendering needs 17 digits. -/
def c5Instr : DecodedInstruction :=
  { ip := 65536, len := 1, mnemonic := "Nop", opCodeString := "NP 90",
    renderedIntel := "nop", renderedGas := "nop", cpuidFeatures := [] }

/-- A decoder value that emits no instructions (any decoder does so on an
empty buffer). -/
def emptyDecode : List Nat → Bitness → Nat → List DecodedInstruction :=
  fun _ _ _ => []

/-- A decoder value emitting the two-record sequence `[instrAdd, instrNop0]`. -/
def twoInstrDecode : List Nat → Bitness → Nat → List DecodedInstruction :=
  fun _ _ _ => [instrAdd, instrNop0]

/-- Line `k` of an optional line list. -/
def lineAt (k : Nat) (o : Option (List String)) : Option String :=
  o.bind (fun ls => ls[k]?)

/-- Number of output lines of a result. -/
def assemblyCount (r : DisassemblerResult) : Nat :=
  r.assembly.length

/-- Total of the counts recorded in a result's `most_used_instructions`. -/
def countedInstructions (r : DisassemblerResult) : Nat :=
  sumCounts r.most_used_instructions

/-- The single output line of the `[0x90]`-at-`0x1000` scenario (hex mode,
Intel dialect). -/
def nopLine : String :=
  "0000000000001000  | 90                               | NP 90                            | nop\n"

/-- The single output line produced for `c5Instr` in binary mode: its
address field carries 17 binary digits. -/
def c5Line : String :=
  "10000000000000000  | 10010000                                                                         | NP 90                            | nop\n"

/-! ## Lemmas about digit expansion and rendering -/

theorem toDigitsRevAux_zero (b : Nat) (fuel : Nat) : toDigitsRevAux b fuel 0 = [] := by
  cases fuel <;> simp [toDigitsRevAux]

theorem toDigitsRevAux_fuel (b : Nat) (hb : 2 ≤ b) :
    ∀ f₁ f₂ n, n ≤ f₁ → n ≤ f₂ → toDigitsRevAux b f₁ n = toDigitsRevAux b f₂ n := by
  intro f₁
  induction f₁ with
  | zero =>
    intro f₂ n h₁ _
    have hn : n = 0 := Nat.le_zero.mp h₁
    subst hn
    rw [toDigitsRevAux_zero, toDigitsRevAux_zero]
  | succ f ih =>
    intro f₂ n h₁ h₂
    by_cases hn : n = 0
    · subst hn; rw [toDigitsRevAux_zero, toDigitsRevAux_zero]
    · cases f₂ with
      | zero => omega
      | succ f₂' =>
        have hdiv : n / b < n := Nat.div_lt_self (Nat.pos_of_ne_zero hn) (by omega)
        simp only [toDigitsRevAux, if_neg hn]
        rw [ih f₂' (n / b) (by omega) (by omega)]

theorem toDigitsRev_step (b n : Nat) (hb : 2 ≤ b) (hn : n ≠ 0) :
    toDigitsRev b n = n % b :: toDigitsRev b (n / b) := by
  cases n with
  | zero => exact absurd rfl hn
  | succ m =>
    have hdiv : (m + 1) / b < m + 1 := Nat.div_lt_self (Nat.succ_pos m) (by omega)
    simp only [toDigitsRev, toDigitsRevAux, if_neg hn]
    rw [toDigitsRevAux_fuel b hb m ((m + 1) / b) ((m + 1) / b) (by omega) (by omega)]

theorem toDigitsRev_zero (b : Nat) : toDigitsRev b 0 = [] :=
  toDigitsRevAux_zero b 0

theorem ofDigitsLE_toDigitsRev (b : Nat) (hb : 2 ≤ b) :
    ∀ n, ofDigitsLE b (toDigitsRev b n) = n := by
  intro n
  induction n using Nat.strong_induction_on with
  | _ n ih =>
    by_cases hn : n = 0
    · subst hn; rw [toDigitsRev_zero]; rfl
    · have hdiv : n / b < n := Nat.div_lt_self (Nat.pos_of_ne_zero hn) (by omega)
      rw [toDigitsRev_step b n hb hn]
      show n % b + b * ofDigitsLE b (toDigitsRev b (n / b)) = n
      rw [ih (n / b) hdiv]
      exact Nat.mod_add_div n b

theorem toDigitsRev_lt (b : Nat) (hb : 2 ≤ b) :
    ∀ n, ∀ d ∈ toDigitsRev b n, d < b := by
  intro n
  induction n using Nat.strong_induction_on with
  | _ n ih =>
    intro d hd
    by_cases hn : n = 0
    · subst hn; rw [toDigitsRev_zero] at hd; simp at hd
    · have hdiv : n / b < n := Nat.div_lt_self (Nat.pos_of_ne_zero hn) (by omega)
      rw [toDigitsRev_step b n hb hn, List.mem_cons] at hd
      rcases hd with rfl | hd
      · exact Nat.mod_lt n (by omega)
      · exact ih (n / b) hdiv d hd

theorem toDigitsRev_length_le (b : Nat) (hb : 2 ≤ b) :
    ∀ n k, n < b ^ k → (toDigitsRev b n).length ≤ k := by
  intro n
  induction n using Nat.strong_induction_on with
  | _ n ih =>
    intro k hk
    by_cases hn : n = 0
    · subst hn; rw [toDigitsRev_zero]; exact Nat.zero_le k
    · cases k with
      | zero => simp at hk; omega
      | succ k' =>
        have hdiv : n / b < n := Nat.div_lt_self (Nat.pos_of_ne_zero hn) (by omega)
        have hk' : n / b < b ^ k' := by
          rw [Nat.div_lt_iff_lt_mul (by omega : 0 < b)]
          calc n < b ^ (k' + 1) := hk
            _ = b ^ k' * b := by rw [Nat.pow_succ]
        rw [toDigitsRev_step b n hb hn]
        simpa using ih (n / b) hdiv k' hk'

theorem toDigitsRev_ne_nil (b n : Nat) (hb : 2 ≤ b) (hn : n ≠ 0) :
    toDigitsRev b n ≠ [] := by
  rw [toDigitsRev_step b n hb hn]
  simp

theorem digitVal_digitChar (d : Nat) (hd : d < 16) : digitVal (digitChar d) = d := by
  interval_cases d <;> rfl

theorem digitChar_ne_space (d : Nat) : digitChar d ≠ ' ' := by
  unfold digitChar
  split <;> decide

theorem natToBase_ne_space (b n : Nat) : ∀ c ∈ natToBase b n, c ≠ ' ' := by
  intro c hc
  unfold natToBase at hc
  split at hc
  · simp at hc; subst hc; decide
  · rw [List.mem_map] at hc
    obtain ⟨d, _, rfl⟩ := hc
    exact digitChar_ne_space d

theorem natToBase_ne_nil (b n : Nat) (hb : 2 ≤ b) : natToBase b n ≠ [] := by
  unfold natToBase
  split
  · simp
  · simp only [ne_eq, List.map_eq_nil_iff, List.reverse_eq_nil_iff]
    exact toDigitsRev_ne_nil b n hb (by assumption)

theorem natToBase_length_le (b n k : Nat) (hb : 2 ≤ b) (hk : 1 ≤ k) (h : n < b ^ k) :
    (natToBase b n).length ≤ k := by
  unfold natToBase
  split
  · simpa using hk
  · simpa using toDigitsRev_length_le b hb n k h

theorem padLeftZero_length (cs : List Char) (w : Nat) :
    (padLeftZero cs w).length = max w cs.length := by
  simp [padLeftZero]
  omega

theorem parseGroup_replicate_zero (b k : Nat) (cs : List Char) :
    parseGroup b (List.replicate k '0' ++ cs) = parseGroup b cs := by
  unfold parseGroup
  rw [List.foldl_append]
  congr 1
  induction k with
  | zero => rfl
  | succ k ih => simpa [List.replicate_succ, digitVal] using ih

theorem parseGroup_padLeftZero (b : Nat) (cs : List Char) (w : Nat) :
    parseGroup b (padLeftZero cs w) = parseGroup b cs :=
  parseGroup_replicate_zero b _ cs

theorem parseGroup_natToBase (b n : Nat) (hb : 2 ≤ b) (hb16 : b ≤ 16) :
    parseGroup b (natToBase b n) = n := by
  unfold natToBase
  split
  · subst_vars; rfl
  · rw [show parseGroup b ((toDigitsRev b n).reverse.map digitChar)
        = ((toDigitsRev b n).reverse.map digitChar).foldl (fun a c => b * a + digitVal c) 0
      from rfl]
    rw [List.foldl_map, List.foldl_reverse]
    have key : ∀ L : List Nat, (∀ d ∈ L, d < b) →
        L.foldr (fun d a => b * a + digitVal (digitChar d)) 0 = ofDigitsLE b L := by
      intro L
      induction L with
      | nil => intro _; rfl
      | cons d rest ih =>
        intro hmem
        have hd : d < 16 := lt_of_lt_of_le (hmem d (by simp)) hb16
        simp only [List.foldr_cons, ih (fun x hx => hmem x (by simp [hx]))]
        rw [digitVal_digitChar d hd]
        show b * ofDigitsLE b rest + d = d + b * ofDigitsLE b rest
        omega
    rw [key (toDigitsRev b n) (toDigitsRev_lt b hb n)]
    exact ofDigitsLE_toDigitsRev b hb n

/-! ## Lemmas about the rendered fields -/

theorem data_append (a b : String) : (a ++ b).data = a.data ++ b.data := by
  simp

theorem addrField_length_ge (use_binary : Bool) (ip : Nat) :
    16 ≤ (addrField use_binary ip).length := by
  unfold addrField
  cases use_binary <;>
    simp only [if_true, if_false, Bool.false_eq_true, String.length,
      String.data, padLeftZero_length] <;> omega

theorem addrField_length_eq (use_binary : Bool) (ip : Nat)
    (h : ip < (if use_binary then 2 else 16) ^ 16) :
    (addrField use_binary ip).length = 16 := by
  unfold addrField
  cases use_binary <;> simp only [if_true, if_false, Bool.false_eq_true] at h ⊢ <;>
    rw [show (String.mk (padLeftZero (natToBase _ ip) 16)).length
        = (padLeftZero (natToBase _ ip) 16).length from rfl, padLeftZero_length]
  · have := natToBase_length_le 16 ip 16 (by omega) (by omega) h
    omega
  · have := natToBase_length_le 2 ip 16 (by omega) (by omega) h
    omega

theorem byteGroup_ne_space (use_binary : Bool) (b : Nat) :
    ∀ c ∈ (byteGroup use_binary b).data, c ≠ ' ' := by
  intro c hc
  unfold byteGroup at hc
  cases use_binary <;>
    simp only [if_true, if_false, Bool.false_eq_true, String.data] at hc <;>
    · unfold padLeftZero at hc
      rw [List.mem_append] at hc
      rcases hc with hc | hc
      · rw [List.mem_replicate] at hc
        rw [hc.2]; decide
      · exact natToBase_ne_space _ _ c hc

theorem byteGroup_ne_nil (use_binary : Bool) (b : Nat) :
    (byteGroup use_binary b).data ≠ [] := by
  unfold byteGroup padLeftZero
  cases use_binary <;>
    simp only [if_true, if_false, Bool.false_eq_true, String.data, ne_eq,
      List.append_eq_nil] <;>
    exact fun h => natToBase_ne_nil _ _ (by omega) h.2

theorem parseGroup_byteGroup (use_binary : Bool) (b : Nat) :
    parseGroup (if use_binary then 2 else 16) (byteGroup use_binary b).data = b := by
  unfold byteGroup
  cases use_binary <;>
    simp only [if_true, if_false, Bool.false_eq_true, String.data] <;>
    rw [parseGroup_padLeftZero] <;>
    exact parseGroup_natToBase _ b (by omega) (by omega)

theorem machineCode_data (use_binary : Bool) (instr_bytes : List Nat) :
    (machineCode use_binary instr_bytes).data
      = (instr_bytes.map (fun b => (byteGroup use_binary b).data ++ [' '])).flatten := by
  have general : ∀ (bs : List Nat) (acc : String),
      (bs.foldl (fun acc b => acc ++ byteGroup use_binary b ++ " ") acc).data
        = acc.data ++ (bs.map (fun b => (byteGroup use_binary b).data ++ [' '])).flatten := by
    intro bs
    induction bs with
    | nil => intro acc; simp
    | cons b rest ih =>
      intro acc
      simp only [List.foldl_cons, List.map_cons, List.flatten_cons]
      rw [ih (acc ++ byteGroup use_binary b ++ " ")]
      simp [data_append]
  simpa using general instr_bytes ""

/-! ## Lemmas about space-splitting and the byte-dump round trip -/

theorem splitOnSpaceAux_replicate (k : Nat) :
    splitOnSpaceAux (List.replicate k ' ') [] = [] := by
  induction k with
  | zero => rfl
  | succ k ih => simpa [List.replicate_succ, splitOnSpaceAux] using ih

theorem splitOnSpaceAux_group (g : List Char) :
    ∀ (acc rest : List Char), (∀ c ∈ g, c ≠ ' ') → acc.reverse ++ g ≠ [] →
      splitOnSpaceAux (g ++ ' ' :: rest) acc
        = (acc.reverse ++ g) :: splitOnSpaceAux rest [] := by
  induction g with
  | nil =>
    intro acc rest _ hne
    simp only [List.append_nil] at hne
    have hacc : acc ≠ [] := fun h => hne (by simp [h])
    simp [splitOnSpaceAux, hacc]
  | cons c g' ih =>
    intro acc rest hns _
    have hc : c ≠ ' ' := hns c (by simp)
    simp only [List.cons_append, splitOnSpaceAux, if_neg hc]
    show splitOnSpaceAux (g' ++ ' ' :: rest) (c :: acc)
      = (acc.reverse ++ c :: g') :: splitOnSpaceAux rest []
    rw [ih (c :: acc) rest (fun x hx => hns x (by simp [hx])) (by simp)]
    simp

theorem splitOnSpace_flatten_groups :
    ∀ (gs : List (List Char)) (k : Nat),
      (∀ g ∈ gs, g ≠ [] ∧ ∀ c ∈ g, c ≠ ' ') →
      splitOnSpace ((gs.map (fun g => g ++ [' '])).flatten ++ List.replicate k ' ') = gs := by
  intro gs
  induction gs with
  | nil => intro k _; simpa [splitOnSpace] using splitOnSpaceAux_replicate k
  | cons g rest ih =>
    intro k hg
    obtain ⟨hne, hns⟩ := hg g (List.mem_cons_self g rest)
    have hrest : ∀ g' ∈ rest, g' ≠ [] ∧ ∀ c ∈ g', c ≠ ' ' :=
      fun g' h => hg g' (List.mem_cons_of_mem g h)
    have key := splitOnSpaceAux_group g []
      ((rest.map (fun g => g ++ [' '])).flatten ++ List.replicate k ' ') hns
      (by simpa using hne)
    simp only [List.reverse_nil, List.nil_append] at key
    have harg : ((g :: rest).map (fun g => g ++ [' '])).flatten ++ List.replicate k ' '
        = g ++ ' ' :: ((rest.map (fun g => g ++ [' '])).flatten ++ List.replicate k ' ') := by
      simp
    unfold splitOnSpace at ih ⊢
    rw [harg, key, ih k hrest]

theorem byteGroup_length (use_binary : Bool) (b : Nat) (hb : b < 256) :
    (byteGroup use_binary b).data.length = if use_binary then 8 else 2 := by
  unfold byteGroup
  cases use_binary <;>
    simp only [if_true, if_false, Bool.false_eq_true, String.data, padLeftZero_length]
  · have := natToBase_length_le 16 b 2 (by omega) (by omega) (by norm_num; omega)
    omega
  · have := natToBase_length_le 2 b 8 (by omega) (by omega) (by norm_num; omega)
    omega

theorem byteDumpField_data (use_binary : Bool) (instr_bytes : List Nat) :
    (byteDumpField use_binary instr_bytes).data
      = (instr_bytes.map (fun b => (byteGroup use_binary b).data ++ [' '])).flatten
        ++ List.replicate
            ((if use_binary then 64 + 16 else 32)
              - (machineCode use_binary instr_bytes).length) ' ' := by
  unfold byteDumpField padRightSpace
  rw [data_append, machineCode_data]

/-- The byte-dump round trip at the level of an arbitrary byte list: the
field of the dump of `instr_bytes` parses back to `instr_bytes`. -/
theorem parseByteDump_byteDumpField (use_binary : Bool) (instr_bytes : List Nat) :
    parseByteDump use_binary (byteDumpField use_binary instr_bytes) = instr_bytes := by
  unfold parseByteDump
  rw [byteDumpField_data]
  rw [show (instr_bytes.map (fun b => (byteGroup use_binary b).data ++ [' '])).flatten
      = ((instr_bytes.map (fun b => (byteGroup use_binary b).data)).map
          (fun g => g ++ [' '])).flatten from by rw [List.map_map]; rfl]
  rw [splitOnSpace_flatten_groups (instr_bytes.map (fun b => (byteGroup use_binary b).data)) _
    (by
      intro g hg
      rw [List.mem_map] at hg
      obtain ⟨b, _, rfl⟩ := hg
      exact ⟨byteGroup_ne_nil use_binary b, byteGroup_ne_space use_binary b⟩)]
  rw [List.map_map]
  have : (fun b => parseGroup (if use_binary then 2 else 16) (byteGroup use_binary b).data)
      = fun b : Nat => b := by
    funext b
    exact parseGroup_byteGroup use_binary b
  rw [show ((parseGroup (if use_binary then 2 else 16)) ∘ fun b => (byteGroup use_binary b).data)
      = (fun b => parseGroup (if use_binary then 2 else 16) (byteGroup use_binary b).data)
      from rfl, this]
  simp

/-! ## Lemmas about the mnemonic-count aggregation -/

theorem insertDesc_perm (p : String × Nat) (l : List (String × Nat)) :
    (insertDesc p l).Perm (p :: l) := by
  induction l with
  | nil => exact List.Perm.refl _
  | cons q rest ih =>
    unfold insertDesc
    split
    · exact ((ih.cons q).trans (List.Perm.swap p q rest))
    · exact List.Perm.refl _

theorem sortDesc_perm (l : List (String × Nat)) : (sortDesc l).Perm l := by
  induction l with
  | nil => exact List.Perm.refl _
  | cons p rest ih =>
    exact (insertDesc_perm p (sortDesc rest)).trans (ih.cons p)

theorem mem_insertDesc {x p : String × Nat} {l : List (String × Nat)}
    (h : x ∈ insertDesc p l) : x = p ∨ x ∈ l := by
  have := (insertDesc_perm p l).mem_iff.mp h
  simpa using this

theorem insertDesc_sorted (p : String × Nat) (l : List (String × Nat))
    (h : l.Pairwise (fun a b => b.2 ≤ a.2)) :
    (insertDesc p l).Pairwise (fun a b => b.2 ≤ a.2) := by
  induction l with
  | nil => simp [insertDesc]
  | cons q rest ih =>
    rw [List.pairwise_cons] at h
    obtain ⟨hq, hrest⟩ := h
    unfold insertDesc
    split
    · rw [List.pairwise_cons]
      refine ⟨?_, ih hrest⟩
      intro x hx
      rcases mem_insertDesc hx with rfl | hx
      · omega
      · exact hq x hx
    · rw [List.pairwise_cons]
      constructor
      · intro x hx
        rw [List.mem_cons] at hx
        rcases hx with rfl | hx
        · omega
        · have := hq x hx
          omega
      · rw [List.pairwise_cons]
        exact ⟨hq, hrest⟩

theorem sortDesc_sorted (l : List (String × Nat)) :
    (sortDesc l).Pairwise (fun a b => b.2 ≤ a.2) := by
  induction l with
  | nil => simp [sortDesc]
  | cons p rest ih => exact insertDesc_sorted p (sortDesc rest) ih

theorem sumCounts_bumpCount (m : List (String × Nat)) (k : String) :
    sumCounts (bumpCount m k) = sumCounts m + 1 := by
  induction m with
  | nil => rfl
  | cons q rest ih =>
    obtain ⟨qk, qv⟩ := q
    unfold bumpCount
    split
    · simp [sumCounts]
      omega
    · simp only [sumCounts, List.map_cons, List.sum_cons] at ih ⊢
      omega

theorem sumCounts_countEntries (instructions : List DecodedInstruction) :
    sumCounts (countEntries instructions) = instructions.length := by
  have general : ∀ (l : List DecodedInstruction) (m : List (String × Nat)),
      sumCounts (l.foldl (fun m i => bumpCount m (lowerString i.mnemonic)) m)
        = sumCounts m + l.length := by
    intro l
    induction l with
    | nil => intro m; simp
    | cons i rest ih =>
      intro m
      simp only [List.foldl_cons, List.length_cons]
      rw [ih (bumpCount m (lowerString i.mnemonic)), sumCounts_bumpCount]
      omega
  simpa [countEntries, sumCounts] using general instructions []

theorem sumCounts_perm {l₁ l₂ : List (String × Nat)} (h : l₁.Perm l₂) :
    sumCounts l₁ = sumCounts l₂ :=
  (h.map Prod.snd).sum_eq

/-- Everything the `most_used_instructions` value determines independently
of the `HashMap` iteration order: it is a permutation of the canonical
entry list. -/
theorem extract_most_used_perm
    (hashIter : List (String × Nat) → List (String × Nat))
    (hiter : ∀ m, (hashIter m).Perm m)
    (instructions : List DecodedInstruction) :
    (extract_most_used_instructions hashIter instructions).Perm
      (countEntries instructions) := by
  exact (sortDesc_perm _).trans (hiter _)

/-! ## Lemmas about the ISA-extension collection -/

theorem keepFirsts_congr (l : List String) :
    ∀ s₁ s₂, (∀ x, x ∈ s₁ ↔ x ∈ s₂) → keepFirsts s₁ l = keepFirsts s₂ l := by
  induction l with
  | nil => intro s₁ s₂ _; rfl
  | cons f rest ih =>
    intro s₁ s₂ hs
    unfold keepFirsts
    by_cases hf : f ∈ s₁
    · rw [if_pos hf, if_pos ((hs f).mp hf)]
      exact ih s₁ s₂ hs
    · rw [if_neg hf, if_neg (fun h => hf ((hs f).mpr h))]
      rw [ih (f :: s₁) (f :: s₂) (by intro x; simp [hs x])]

theorem foldl_keepFirsts (l : List String) :
    ∀ acc : List String,
      l.foldl (fun r f => if r.contains f then r else r ++ [f]) acc
        = acc ++ keepFirsts acc l := by
  induction l with
  | nil => intro acc; simp [keepFirsts]
  | cons f rest ih =>
    intro acc
    simp only [List.foldl_cons]
    unfold keepFirsts
    by_cases hf : f ∈ acc
    · rw [if_pos (by simpa using hf), if_pos hf]
      exact ih acc
    · rw [if_neg (by simpa using hf), if_neg hf]
      rw [ih (acc ++ [f])]
      rw [keepFirsts_congr rest (acc ++ [f]) (f :: acc) (by intro x; simp; tauto)]
      simp

theorem keepFirsts_nodup (l : List String) :
    ∀ seen, (keepFirsts seen l).Nodup ∧ ∀ x ∈ keepFirsts seen l, x ∉ seen := by
  induction l with
  | nil => intro seen; simp [keepFirsts]
  | cons f rest ih =>
    intro seen
    unfold keepFirsts
    by_cases hf : f ∈ seen
    · rw [if_pos hf]; exact ih seen
    · rw [if_neg hf]
      obtain ⟨hnd, hmem⟩ := ih (f :: seen)
      refine ⟨?_, ?_⟩
      · rw [List.nodup_cons]
        exact ⟨fun h => (hmem f h) (by simp), hnd⟩
      · intro x hx
        rw [List.mem_cons] at hx
        rcases hx with rfl | hx
        · exact hf
        · intro hxs
          exact (hmem x hx) (by simp [hxs])

theorem mem_keepFirsts (l : List String) :
    ∀ seen x, x ∈ keepFirsts seen l ↔ x ∈ l ∧ x ∉ seen := by
  induction l with
  | nil => intro seen x; simp [keepFirsts]
  | cons f rest ih =>
    intro seen x
    unfold keepFirsts
    by_cases hf : f ∈ seen
    · rw [if_pos hf, ih seen x]
      constructor
      · rintro ⟨hx, hxs⟩; exact ⟨by simp [hx], hxs⟩
      · rintro ⟨hx, hxs⟩
        rw [List.mem_cons] at hx
        rcases hx with rfl | hx
        · exact absurd hf hxs
        · exact ⟨hx, hxs⟩
    · rw [if_neg hf, List.mem_cons, ih (f :: seen) x]
      constructor
      · rintro (rfl | ⟨hx, hxs⟩)
        · exact ⟨by simp, hf⟩
        · simp only [List.mem_cons, not_or] at hxs
          exact ⟨by simp [hx], hxs.2⟩
      · rintro ⟨hx, hxs⟩
        rw [List.mem_cons] at hx
        rcases hx with rfl | hx
        · exact Or.inl rfl
        · by_cases hxf : x = f
          · exact Or.inl hxf
          · exact Or.inr ⟨hx, by simp [hxf, hxs]⟩

/-- `extract_isa_extensions` is exactly the order-of-first-appearance
deduplication of the feature tags, flattened instruction by instruction. -/
theorem extract_isa_eq_keepFirsts (instructions : List DecodedInstruction) :
    extract_isa_extensions instructions
      = keepFirsts [] ((instructions.map (fun i => i.cpuidFeatures)).flatten) := by
  have flat : ∀ (l : List DecodedInstruction) (init : List String),
      l.foldl (fun result i =>
          i.cpuidFeatures.foldl (fun r f => if r.contains f then r else r ++ [f]) result) init
        = ((l.map (fun i => i.cpuidFeatures)).flatten).foldl
            (fun r f => if r.contains f then r else r ++ [f]) init := by
    intro l
    induction l with
    | nil => intro init; rfl
    | cons i rest ih =>
      intro init
      simp only [List.foldl_cons, List.map_cons, List.flatten_cons, List.foldl_append]
      exact ih _
  unfold extract_isa_extensions
  rw [flat instructions []]
  simpa using foldl_keepFirsts ((instructions.map (fun i => i.cpuidFeatures)).flatten) []

/-! ## Lemmas about line assembly -/

theorem formatLine_eq (bytes : List Nat) (rip : Nat) (use_binary use_intel : Bool)
    (i : DecodedInstruction) (h₁ : rip ≤ i.ip) (h₂ : i.ip - rip + i.len ≤ bytes.length) :
    formatLine bytes rip use_binary use_intel i
      = some (addrField use_binary i.ip ++ " " ++ " | "
          ++ byteDumpField use_binary ((bytes.drop (i.ip - rip)).take i.len) ++ " | "
          ++ padRightSpace i.opCodeString 32 ++ " | "
          ++ (if use_intel then i.renderedIntel else i.renderedGas) ++ "\n") := by
  unfold formatLine
  rw [if_neg (by omega), if_pos h₂]

theorem mapM_eq_some {α β : Type} (f : α → Option β) (g : α → β) :
    ∀ l : List α, (∀ x ∈ l, f x = some (g x)) → l.mapM f = some (l.map g) := by
  intro l
  induction l with
  | nil => intro _; rfl
  | cons x rest ih =>
    intro h
    rw [List.mapM_cons, h x (by simp), ih (fun y hy => h y (by simp [hy]))]
    rfl

theorem extract_assembly_eq_map (instructions : List DecodedInstruction) (bytes : List Nat)
    (rip : Nat) (use_binary use_intel : Bool)
    (h : ∀ i ∈ instructions, rip ≤ i.ip ∧ i.ip - rip + i.len ≤ bytes.length) :
    extract_assembly instructions bytes rip use_binary use_intel
      = some (instructions.map (fun i =>
          addrField use_binary i.ip ++ " " ++ " | "
          ++ byteDumpField use_binary ((bytes.drop (i.ip - rip)).take i.len) ++ " | "
          ++ padRightSpace i.opCodeString 32 ++ " | "
          ++ (if use_intel then i.renderedIntel else i.renderedGas) ++ "\n")) := by
  exact mapM_eq_some _ _ instructions
    (fun i hi => formatLine_eq bytes rip use_binary use_intel i (h i hi).1 (h i hi).2)

/-! ## The claims -/

/-- C1, counterexample.  The claim demands that two calls of `disassemble`
with identical inputs yield `most_used_instructions` with the same pairs in
the same order, including among mnemonics with equal counts, reproducibly
across runs.  The source builds the counts in a `std::collections::HashMap`
(randomly seeded per call) and then sorts only by count with a stable sort,
so the relative order of equal-count mnemonics is whatever order the map
iterates in.  Here two iteration orders that are both permutations of the
same entry list — hence both legitimate `HashMap` behaviours on this input —
yield `[("add", 1), ("nop", 1)]` and `[("nop", 1), ("add", 1)]`. -/
theorem C1_counterexample :
    (List.reverse (countEntries [instrAdd, instrNop0])).Perm
        (countEntries [instrAdd, instrNop0])
    ∧ (disassemble twoInstrDecode id [144] Bitness.X64 0 false true).map
        DisassemblerResult.most_used_instructions = some [("add", 1), ("nop", 1)]
    ∧ (disassemble twoInstrDecode List.reverse [144] Bitness.X64 0 false true).map
        DisassemblerResult.most_used_instructions = some [("nop", 1), ("add", 1)]
    ∧ ([("add", 1), ("nop", 1)] : List (String × Nat)) ≠ [("nop", 1), ("add", 1)] :=
  ⟨List.reverse_perm _, by decide, by decide, by decide⟩

/-- C1, amended.  With the `HashMap` iteration order made explicit as a
parameter (constrained only to permute the entries, which is all the
`HashMap` guarantees), two calls of `disassemble` with identical inputs
yield identical `lines`, identical `isa_extensions_used`, and
`most_used_instructions` containing the same pairs up to permutation; the
order among equal-count mnemonics may differ between calls and is the only
non-reproducible part. -/
theorem C1_amended (decode : List Nat → Bitness → Nat → List DecodedInstruction)
    (iter₁ iter₂ : List (String × Nat) → List (String × Nat))
    (h₁ : ∀ m, (iter₁ m).Perm m) (h₂ : ∀ m, (iter₂ m).Perm m)
    (bytes : List Nat) (bt : Bitness) (rip : Nat) (use_binary use_intel : Bool) :
    ((disassemble decode iter₁ bytes bt rip use_binary use_intel).map
        DisassemblerResult.assembly
      = (disassemble decode iter₂ bytes bt rip use_binary use_intel).map
        DisassemblerResult.assembly)
    ∧ ((disassemble decode iter₁ bytes bt rip use_binary use_intel).map
        DisassemblerResult.isa_extensions_used
      = (disassemble decode iter₂ bytes bt rip use_binary use_intel).map
        DisassemblerResult.isa_extensions_used)
    ∧ ∀ r₁ r₂, disassemble decode iter₁ bytes bt rip use_binary use_intel = some r₁ →
        disassemble decode iter₂ bytes bt rip use_binary use_intel = some r₂ →
        r₁.most_used_instructions.Perm r₂.most_used_instructions := by
  cases h : extract_assembly (decode bytes bt rip) bytes rip use_binary use_intel with
  | none =>
    refine ⟨?_, ?_, ?_⟩ <;> simp [disassemble, h]
  | some asm =>
    refine ⟨by simp [disassemble, h], by simp [disassemble, h], ?_⟩
    intro r₁ r₂ hr₁ hr₂
    simp only [disassemble, h, Option.some.injEq] at hr₁ hr₂
    rw [← hr₁, ← hr₂]
    exact (extract_most_used_perm iter₁ h₁ _).trans
      (extract_most_used_perm iter₂ h₂ _).symm

/-- C1 witness: the amended determinism statement at a concrete input. -/
theorem C1_witness :
    ((disassemble emptyDecode id [] Bitness.X64 0 false true).map
        DisassemblerResult.assembly
      = (disassemble emptyDecode List.reverse [] Bitness.X64 0 false true).map
        DisassemblerResult.assembly)
    ∧ ((disassemble emptyDecode id [] Bitness.X64 0 false true).map
        DisassemblerResult.isa_extensions_used
      = (disassemble emptyDecode List.reverse [] Bitness.X64 0 false true).map
        DisassemblerResult.isa_extensions_used) :=
  ⟨(C1_amended emptyDecode id List.reverse (fun m => List.Perm.refl m)
      (fun m => List.reverse_perm m) [] Bitness.X64 0 false true).1,
   (C1_amended emptyDecode id List.reverse (fun m => List.Perm.refl m)
      (fun m => List.reverse_perm m) [] Bitness.X64 0 false true).2.1⟩

/-- C2: for an instruction whose byte range lies in the buffer, parsing the
space-separated groups of the byte-dump field of its line (in the chosen
numeric mode) reconstructs exactly the `len` bytes of the buffer slice
starting at `address - base`; that slice has length exactly `len`; the
formatted line carries precisely this byte-dump field; and, when the buffer
holds byte values, every group is 8 characters (binary) resp. 2 characters
(hex) wide. -/
theorem C2_roundtrip (bytes : List Nat) (rip : Nat) (use_binary use_intel : Bool)
    (i : DecodedInstruction) (h₁ : rip ≤ i.ip) (h₂ : i.ip - rip + i.len ≤ bytes.length) :
    parseByteDump use_binary
        (byteDumpField use_binary ((bytes.drop (i.ip - rip)).take i.len))
      = (bytes.drop (i.ip - rip)).take i.len
    ∧ ((bytes.drop (i.ip - rip)).take i.len).length = i.len
    ∧ formatLine bytes rip use_binary use_intel i
      = some (addrField use_binary i.ip ++ " " ++ " | "
          ++ byteDumpField use_binary ((bytes.drop (i.ip - rip)).take i.len) ++ " | "
          ++ padRightSpace i.opCodeString 32 ++ " | "
          ++ (if use_intel then i.renderedIntel else i.renderedGas) ++ "\n")
    ∧ ((∀ b ∈ bytes, b < 256) →
        ∀ g ∈ splitOnSpace (byteDumpField use_binary
            ((bytes.drop (i.ip - rip)).take i.len)).data,
          g.length = if use_binary then 8 else 2) := by
  refine ⟨parseByteDump_byteDumpField use_binary _, ?_, ?_, ?_⟩
  · rw [List.length_take, List.length_drop]
    omega
  · exact formatLine_eq bytes rip use_binary use_intel i h₁ h₂
  · intro hbytes g hg
    rw [byteDumpField_data,
      show ((bytes.drop (i.ip - rip)).take i.len).map
            (fun b => (byteGroup use_binary b).data ++ [' '])
          = (((bytes.drop (i.ip - rip)).take i.len).map
              (fun b => (byteGroup use_binary b).data)).map (fun g => g ++ [' '])
        from by rw [List.map_map]; rfl,
      splitOnSpace_flatten_groups _ _
        (by
          intro g' hg'
          rw [List.mem_map] at hg'
          obtain ⟨b, _, rfl⟩ := hg'
          exact ⟨byteGroup_ne_nil use_binary b, byteGroup_ne_space use_binary b⟩)] at hg
    rw [List.mem_map] at hg
    obtain ⟨b, hb, rfl⟩ := hg
    have hmem : b ∈ bytes := List.mem_of_mem_drop (List.mem_of_mem_take hb)
    exact byteGroup_length use_binary b (hbytes b hmem)

/-- C2 witness: the round trip at a concrete input. -/
theorem C2_witness :
    parseByteDump false
        (byteDumpField false ((List.drop (instrNop0.ip - 0) [144]).take instrNop0.len))
      = (List.drop (instrNop0.ip - 0) [144]).take instrNop0.len
    ∧ ((List.drop (instrNop0.ip - 0) [144]).take instrNop0.len).length = instrNop0.len
    ∧ formatLine [144] 0 false true instrNop0
      = some (addrField false instrNop0.ip ++ " " ++ " | "
          ++ byteDumpField false ((List.drop (instrNop0.ip - 0) [144]).take instrNop0.len)
          ++ " | " ++ padRightSpace instrNop0.opCodeString 32 ++ " | "
          ++ (if true then instrNop0.renderedIntel else instrNop0.renderedGas) ++ "\n") :=
  ⟨(C2_roundtrip [144] 0 false true instrNop0 (by decide) (by decide)).1,
   (C2_roundtrip [144] 0 false true instrNop0 (by decide) (by decide)).2.1,
   (C2_roundtrip [144] 0 false true instrNop0 (by decide) (by decide)).2.2.1⟩

/-- C3, counterexample.  The claim says the byte-dump field is left-padded
(padding before the byte text) to the fixed column width.  For the one-byte
hex dump `"90 "` the field is in fact the byte text followed by 29 trailing
spaces — Rust's `format!("{:0width$}", s)` on a *string* left-aligns and
pads on the right with spaces (the `0` flag only affects integers) — so the
padding comes after the byte text, not before it. -/
theorem C3_counterexample :
    byteDumpField false [144] = "90 " ++ String.mk (List.replicate 29 ' ')
    ∧ byteDumpField false [144] ≠ String.mk (List.replicate 29 ' ') ++ "90 "
    ∧ (byteDumpField false [144]).length = 32 :=
  ⟨by decide, by decide, by decide⟩

/-- C3, amended: the byte-dump field is the rendered byte text *left-justified*
— padded on the right with spaces — to a fixed total column width, which is
80 characters in binary mode and 32 characters in hexadecimal mode
(whenever the rendered text fits that width). -/
theorem C3_amended (use_binary : Bool) (instr_bytes : List Nat)
    (h : (machineCode use_binary instr_bytes).length ≤ if use_binary then 64 + 16 else 32) :
    byteDumpField use_binary instr_bytes
      = machineCode use_binary instr_bytes
        ++ String.mk (List.replicate ((if use_binary then 64 + 16 else 32)
              - (machineCode use_binary instr_bytes).length) ' ')
    ∧ (byteDumpField use_binary instr_bytes).length = if use_binary then 80 else 32 := by
  constructor
  · rfl
  · rw [show (byteDumpField use_binary instr_bytes).length
        = (byteDumpField use_binary instr_bytes).data.length from rfl,
      byteDumpField_data, List.length_append, List.length_replicate]
    have hmc : (machineCode use_binary instr_bytes).length
        = ((instr_bytes.map (fun b => (byteGroup use_binary b).data ++ [' '])).flatten).length := by
      rw [show (machineCode use_binary instr_bytes).length
          = (machineCode use_binary instr_bytes).data.length from rfl, machineCode_data]
    rw [← hmc]
    cases use_binary <;>
      simp only [if_true, if_false, Bool.false_eq_true] at h ⊢ <;> omega

/-- C3 witness: the amended padding statement at a concrete input. -/
theorem C3_witness :
    byteDumpField false [144]
      = machineCode false [144]
        ++ String.mk (List.replicate ((if false then 64 + 16 else 32)
              - (machineCode false [144]).length) ' ')
    ∧ (byteDumpField false [144]).length = if false then 80 else 32 :=
  C3_amended false [144] (by decide)

/-- C4: for every decoded-instruction sequence and every legitimate
`HashMap` iteration order, the counts in `most_used_instructions` sum to
the number of decoded instructions, and the list is sorted non-increasing
by count. -/
theorem C4_counts (hashIter : List (String × Nat) → List (String × Nat))
    (instructions : List DecodedInstruction)
    (hiter : ∀ m, (hashIter m).Perm m) :
    sumCounts (extract_most_used_instructions hashIter instructions)
      = instructions.length
    ∧ (extract_most_used_instructions hashIter instructions).Pairwise
        (fun p q => q.2 ≤ p.2) := by
  constructor
  · rw [sumCounts_perm (extract_most_used_perm hashIter hiter instructions),
      sumCounts_countEntries]
  · exact sortDesc_sorted _

/-- C4 witness: the count-sum statement at a concrete input. -/
theorem C4_witness :
    sumCounts (extract_most_used_instructions id [instrNop0])
      = List.length [instrNop0] :=
  (C4_counts id [instrNop0] (fun m => List.Perm.refl m)).1

/-- C5, counterexample.  The claim says line *i*'s address field is the
address rendered "as 16 digits".  `format!("{:016b}", ip)` zero-pads to a
*minimum* of 16 digits: for the instruction at address `2 ^ 16` in binary
mode the produced line's address field has 17 binary digits, not 16. -/
theorem C5_counterexample :
    ((extract_assembly [c5Instr] [144] 65536 true true).getD []).head? = some c5Line
    ∧ (addressFieldOf c5Line).length = 17
    ∧ (addressFieldOf c5Line).length ≠ 16 :=
  ⟨by decide, by decide, by decide⟩

/-- C5, amended: under the decoder's containment contract the number of
lines equals the number of decoded instructions, line *k* corresponds to
instruction *k* and starts with instruction *k*'s address rendered in the
requested numeric mode followed by a space, and the address rendering is
zero-padded to a *minimum* of 16 digits — exactly 16 whenever the address
fits in 16 digits of the chosen base (which for `u64` addresses is always
the case in hexadecimal mode, and holds below `2 ^ 16` in binary mode). -/
theorem C5_amended (instructions : List DecodedInstruction) (bytes : List Nat)
    (rip : Nat) (use_binary use_intel : Bool) (k : Nat) (hk : k < instructions.length)
    (hb : ∀ i ∈ instructions, rip ≤ i.ip ∧ i.ip - rip + i.len ≤ bytes.length) :
    (extract_assembly instructions bytes rip use_binary use_intel).map List.length
      = some instructions.length
    ∧ lineAt k (extract_assembly instructions bytes rip use_binary use_intel)
      = some (addrField use_binary (instructions.get ⟨k, hk⟩).ip ++ " " ++ " | "
          ++ byteDumpField use_binary
              ((bytes.drop ((instructions.get ⟨k, hk⟩).ip - rip)).take
                (instructions.get ⟨k, hk⟩).len) ++ " | "
          ++ padRightSpace (instructions.get ⟨k, hk⟩).opCodeString 32 ++ " | "
          ++ (if use_intel then (instructions.get ⟨k, hk⟩).renderedIntel
              else (instructions.get ⟨k, hk⟩).renderedGas) ++ "\n")
    ∧ 16 ≤ (addrField use_binary (instructions.get ⟨k, hk⟩).ip).length
    ∧ ((instructions.get ⟨k, hk⟩).ip < (if use_binary then 2 else 16) ^ 16 →
        (addrField use_binary (instructions.get ⟨k, hk⟩).ip).length = 16) := by
  rw [extract_assembly_eq_map instructions bytes rip use_binary use_intel hb]
  refine ⟨by simp, ?_, addrField_length_ge _ _, addrField_length_eq _ _⟩
  simp [lineAt, List.getElem?_eq_getElem hk, List.get_eq_getElem]

/-- C5 witness: the amended line/address statement at a concrete input. -/
theorem C5_witness :
    (extract_assembly [instrNop0] [144] 0 false true).map List.length
      = some (List.length [instrNop0])
    ∧ lineAt 0 (extract_assembly [instrNop0] [144] 0 false true)
      = some (addrField false instrNop0.ip ++ " " ++ " | "
          ++ byteDumpField false
              ((List.drop (instrNop0.ip - 0) [144]).take instrNop0.len) ++ " | "
          ++ padRightSpace instrNop0.opCodeString 32 ++ " | "
          ++ (if true then instrNop0.renderedIntel else instrNop0.renderedGas) ++ "\n")
    ∧ 16 ≤ (addrField false instrNop0.ip).length
    ∧ (instrNop0.ip < (if false then 2 else 16) ^ 16 →
        (addrField false instrNop0.ip).length = 16) :=
  C5_amended [instrNop0] [144] 0 false true 0 (by decide) (by decide)

/-- C6: `isa_extensions_used` has no duplicates, and it is exactly the
order-of-first-appearance deduplication (`keepFirsts`) of the feature tags
scanned instruction by instruction in sequence order and, within one
instruction, in feature-list order; in particular it holds exactly the tags
occurring in that flattened scan. -/
theorem C6_first_seen (instructions : List DecodedInstruction) :
    (extract_isa_extensions instructions).Nodup
    ∧ extract_isa_extensions instructions
      = keepFirsts [] ((instructions.map (fun i => i.cpuidFeatures)).flatten)
    ∧ ∀ x, x ∈ extract_isa_extensions instructions
        ↔ x ∈ (instructions.map (fun i => i.cpuidFeatures)).flatten := by
  have he := extract_isa_eq_keepFirsts instructions
  refine ⟨?_, he, ?_⟩
  · rw [he]
    exact (keepFirsts_nodup _ []).1
  · intro x
    rw [he, mem_keepFirsts _ [] x]
    simp

/-- C7: on the spec's `[0x90]`-at-`0x1000` scenario (hex mode, Intel
dialect), `disassemble` yields exactly one line whose address field is
`0000000000001000`, whose byte dump contains `90` and whose mnemonic
rendering contains `nop`; `most_used_instructions` is `[("nop", 1)]`; and
`isa_extensions_used` is empty — for every legitimate `HashMap` iteration
order. -/
theorem C7_scenario (hashIter : List (String × Nat) → List (String × Nat))
    (hiter : ∀ m, (hashIter m).Perm m) :
    disassemble nopDecode hashIter [144] Bitness.X64 4096 false true
      = some { assembly := [nopLine], most_used_instructions := [("nop", 1)],
               isa_extensions_used := [] }
    ∧ addressFieldOf nopLine = "0000000000001000"
    ∧ hasSub "90".data nopLine.data = true
    ∧ hasSub "nop".data nopLine.data = true := by
  have hcount : countEntries [nopInstruction] = [("nop", 1)] := by decide
  have hiter1 : hashIter [("nop", 1)] = [("nop", 1)] := List.perm_singleton.mp (hiter _)
  have hmu : extract_most_used_instructions hashIter [nopInstruction] = [("nop", 1)] := by
    unfold extract_most_used_instructions
    rw [hcount, hiter1]
    decide
  have hasm : extract_assembly [nopInstruction] [144] 4096 false true
      = some [nopLine] := by decide
  refine ⟨?_, by decide, by decide, by decide⟩
  simp only [disassemble, nopDecode, hasm, hmu]
  decide

/-- C7 witness: the scenario statement at the identity iteration order. -/
theorem C7_witness :
    disassemble nopDecode id [144] Bitness.X64 4096 false true
      = some { assembly := [nopLine], most_used_instructions := [("nop", 1)],
               isa_extensions_used := [] }
    ∧ addressFieldOf nopLine = "0000000000001000"
    ∧ hasSub "90".data nopLine.data = true
    ∧ hasSub "nop".data nopLine.data = true :=
  C7_scenario id (fun m => List.Perm.refl m)

/-- C8: whenever every decoded instruction's address is at least the base
address and its byte range lies within the buffer, line rendering succeeds
for the whole sequence — the underflow and out-of-bounds (panic) branches
of the byte-slice computation are unreachable. -/
theorem C8_no_oob (instructions : List DecodedInstruction) (bytes : List Nat)
    (rip : Nat) (use_binary use_intel : Bool)
    (h : ∀ i ∈ instructions, rip ≤ i.ip ∧ i.ip - rip + i.len ≤ bytes.length) :
    (extract_assembly instructions bytes rip use_binary use_intel).isSome = true := by
  rw [extract_assembly_eq_map instructions bytes rip use_binary use_intel h]
  rfl

/-- C8 witness: in-bounds rendering at a concrete input. -/
theorem C8_witness :
    (extract_assembly [instrNop0] [144] 0 false true).isSome = true :=
  C8_no_oob [instrNop0] [144] 0 false true (by decide)

/-- C9: on the empty buffer, any decoder honouring its contract (positive
instruction lengths, byte ranges contained in the buffer) can only emit the
empty instruction sequence, and `disassemble` succeeds with empty `lines`,
empty `most_used_instructions` and empty `isa_extensions_used`. -/
theorem C9_empty (decode : List Nat → Bitness → Nat → List DecodedInstruction)
    (hashIter : List (String × Nat) → List (String × Nat))
    (bt : Bitness) (rip : Nat) (use_binary use_intel : Bool)
    (hlen : ∀ i ∈ decode [] bt rip, 1 ≤ i.len)
    (hcont : ∀ i ∈ decode [] bt rip,
      rip ≤ i.ip ∧ i.ip - rip + i.len ≤ List.length ([] : List Nat))
    (hiter : ∀ m, (hashIter m).Perm m) :
    disassemble decode hashIter [] bt rip use_binary use_intel
      = some { assembly := [], most_used_instructions := [],
               isa_extensions_used := [] } := by
  have hnil : decode [] bt rip = [] := by
    cases hd : decode [] bt rip with
    | nil => rfl
    | cons i rest =>
      have h1 := hlen i (by rw [hd]; simp)
      have h2 := (hcont i (by rw [hd]; simp)).2
      simp only [List.length_nil, Nat.le_zero] at h2
      omega
  have hid : hashIter [] = [] := (hiter []).eq_nil
  simp [disassemble, hnil, extract_assembly, extract_most_used_instructions,
    countEntries, hid, sortDesc, extract_isa_extensions, List.mapM.loop]

/-- C9 witness: the empty-buffer statement at a concrete decoder. -/
theorem C9_witness :
    disassemble emptyDecode id [] Bitness.X64 0 false true
      = some { assembly := [], most_used_instructions := [],
               isa_extensions_used := [] } :=
  C9_empty emptyDecode id Bitness.X64 0 false true (by simp [emptyDecode])
    (by simp [emptyDecode]) (fun m => List.Perm.refl m)

/-- C10: under the decoder's containment contract, `disassemble` returns a
result for every input — there is no error path — and every decoded record
(including any placeholder record the external decoder produces for
ill-formed bytes) is rendered into a line and counted: the number of lines
and the total of the mnemonic counts both equal the number of decoded
records. -/
theorem C10_total (decode : List Nat → Bitness → Nat → List DecodedInstruction)
    (hashIter : List (String × Nat) → List (String × Nat))
    (bytes : List Nat) (bt : Bitness) (rip : Nat) (use_binary use_intel : Bool)
    (hdec : ∀ i ∈ decode bytes bt rip,
      rip ≤ i.ip ∧ i.ip - rip + i.len ≤ bytes.length)
    (hiter : ∀ m, (hashIter m).Perm m) :
    (disassemble decode hashIter bytes bt rip use_binary use_intel).isSome = true
    ∧ (disassemble decode hashIter bytes bt rip use_binary use_intel).map assemblyCount
      = some (decode bytes bt rip).length
    ∧ (disassemble decode hashIter bytes bt rip use_binary use_intel).map
        countedInstructions = some (decode bytes bt rip).length := by
  have hasm := extract_assembly_eq_map (decode bytes bt rip) bytes rip
    use_binary use_intel hdec
  have hcount : sumCounts (extract_most_used_instructions hashIter (decode bytes bt rip))
      = (decode bytes bt rip).length := by
    rw [sumCounts_perm (extract_most_used_perm hashIter hiter _), sumCounts_countEntries]
  refine ⟨?_, ?_, ?_⟩ <;>
    simp [disassemble, hasm, assemblyCount, countedInstructions, hcount]

/-- C10 witness: totality at a concrete input. -/
theorem C10_witness :
    (disassemble emptyDecode id [] Bitness.X64 0 false true).isSome = true
    ∧ (disassemble emptyDecode id [] Bitness.X64 0 false true).map assemblyCount
      = some (List.length (emptyDecode [] Bitness.X64 0))
    ∧ (disassemble emptyDecode id [] Bitness.X64 0 false true).map countedInstructions
      = some (List.length (emptyDecode [] Bitness.X64 0)) :=
  C10_total emptyDecode id [] Bitness.X64 0 false true (by simp [emptyDecode])
    (fun m => List.Perm.refl m)

end Maschinengott
